import Mathlib

/-!
Verification of the directed-graph container `DiGraph<N, E>`
(src/src/digraph.rs), a `HashMap<N, Vec<(N, E)>>` adjacency-list graph.

The hash map is embedded as an association list `List (N × List (N × E))`;
`HashMap::insert` replaces the value at an existing key in place and
otherwise appends, `HashMap::remove` drops the key's entry, and the
`entry` API is expressed by a lookup followed by the matching branch.
`Vec::swap_remove`, `Iterator::position` and `Iterator::find` are embedded
one-to-one as `swapRemove`, `position` and `findElem`.  Cloning of node
identifiers and edge weights is the identity on values.
-/

namespace Digraph

/-- `Iterator::position`: index of the first element satisfying `p`. -/
def position (p : α → Bool) : List α → Option Nat
  | [] => none
  | x :: xs => if p x then some 0 else (position p xs).map (· + 1)

/-- `Iterator::find`: the first element satisfying `p`. -/
def findElem (p : α → Bool) : List α → Option α
  | [] => none
  | x :: xs => if p x then some x else findElem p xs

/-- `Vec::swap_remove i`: replace the element at `i` by the last element and
drop the last slot.  (Callers only use it with `i < l.length`.) -/
def swapRemove (l : List α) (i : Nat) : List α :=
  match l.getLast? with
  | none => l
  | some last => (l.set i last).dropLast

variable {N : Type} [DecidableEq N]

/-- `HashMap::get`: value of the first entry with key `k`. -/
def alLookup : List (N × α) → N → Option α
  | [], _ => none
  | e :: rest, n => if e.1 = n then some e.2 else alLookup rest n

/-- `HashMap::insert` / `Entry::set` on an association list: replace the value
at an existing key in place, otherwise append a new entry. -/
def alInsert : List (N × α) → N → α → List (N × α)
  | [], n, v => [(n, v)]
  | e :: rest, n, v => if e.1 = n then (n, v) :: rest else e :: alInsert rest n v

/-- `HashMap::remove`: drop the entry with key `k`. -/
def alRemove : List (N × α) → N → List (N × α)
  | [], _ => []
  | e :: rest, n => if e.1 = n then rest else e :: alRemove rest n

variable {E : Type}

/-- `DiGraph<N, E>`: adjacency-list directed graph with node values `N` and
edge weights `E`, backed by a map from node to its list of outgoing
`(target, weight)` pairs. -/
structure DiGraph (N E : Type) where
  nodes : List (N × List (N × E))
deriving DecidableEq

/-- `DiGraph::new`: the empty graph. -/
def DiGraph.new : DiGraph N E := ⟨[]⟩

/-- `DiGraph::add_node`: insert `n` with a fresh empty adjacency list
(`HashMap::insert`, so an existing entry's list is replaced) and return `n`. -/
def DiGraph.add_node (g : DiGraph N E) (n : N) : DiGraph N E × N :=
  (⟨alInsert g.nodes n []⟩, n)

/-- The edge-target scan `edges.iter().position(|&(elt, _)| elt == n)` followed
by `swap_remove`, as used by `remove_node`. -/
def removeTarget (edges : List (N × E)) (n : N) : List (N × E) :=
  match position (fun p => decide (p.1 = n)) edges with
  | some index => swapRemove edges index
  | none => edges

/-- `DiGraph::remove_node`: remove `n`'s entry if present, then strip every
remaining node's first edge targeting `n` by swap-remove; returns whether `n`
was present. -/
def DiGraph.remove_node (g : DiGraph N E) (n : N) : DiGraph N E × Bool :=
  match alLookup g.nodes n with
  | none => (g, false)
  | some _ =>
    (⟨(alRemove g.nodes n).map (fun e => (e.1, removeTarget e.2 n))⟩, true)

/-- `DiGraph::contains_node`. -/
def DiGraph.contains_node (g : DiGraph N E) (n : N) : Bool :=
  (alLookup g.nodes n).isSome

/-- The first `entry` match of `add_edge`: make sure the endpoint exists in
the map (`Vacant(ent) => ent.set(Vec::new())`). -/
def ensureNode {E : Type} (nodes : List (N × List (N × E))) (b : N) :
    List (N × List (N × E)) :=
  match alLookup nodes b with
  | none => alInsert nodes b []
  | some _ => nodes

/-- `DiGraph::add_edge`: ensure endpoint `b` has an entry, then push `(b, w)`
onto `a`'s list only when no edge `a → b` is already there; returns whether a
new edge was added. -/
def DiGraph.add_edge (g : DiGraph N E) (a b : N) (w : E) : DiGraph N E × Bool :=
  match alLookup (ensureNode g.nodes b) a with
  | some edges =>
    if (position (fun p => decide (p.1 = b)) edges).isNone then
      (⟨alInsert (ensureNode g.nodes b) a (edges ++ [(b, w)])⟩, true)
    else
      (⟨ensureNode g.nodes b⟩, false)
  | none => (⟨alInsert (ensureNode g.nodes b) a [(b, w)]⟩, true)

/-- `DiGraph::remove_edge`: swap-remove the edge `a → b` from `a`'s list and
return its weight, or `none` when absent. -/
def DiGraph.remove_edge (g : DiGraph N E) (a b : N) : DiGraph N E × Option E :=
  match alLookup g.nodes a with
  | some edges =>
    match position (fun p => decide (p.1 = b)) edges with
    | some index =>
      (⟨alInsert g.nodes a (swapRemove edges index)⟩, (edges[index]?).map Prod.snd)
    | none => (g, none)
  | none => (g, none)

/-- `DiGraph::contains_edge`. -/
def DiGraph.contains_edge (g : DiGraph N E) (a b : N) : Bool :=
  match alLookup g.nodes a with
  | none => false
  | some sus => sus.any (fun p => decide (p.1 = b))

/-- `DiGraph::nodes`: the sequence of node keys. -/
def DiGraph.nodeKeys (g : DiGraph N E) : List N :=
  g.nodes.map Prod.fst

/-- `DiGraph::edges`: `from`'s outgoing `(target, weight)` pairs, empty when
`from` is absent. -/
def DiGraph.edges (g : DiGraph N E) (src : N) : List (N × E) :=
  match alLookup g.nodes src with
  | some edges => edges
  | none => []

/-- `DiGraph::edges_mut`: the same sequence of pairs, via `get_mut`. -/
def DiGraph.edges_mut (g : DiGraph N E) (src : N) : List (N × E) :=
  match alLookup g.nodes src with
  | some edges => edges
  | none => []

/-- `DiGraph::neighbors`: targets of `from`'s outgoing edges. -/
def DiGraph.neighbors (g : DiGraph N E) (src : N) : List N :=
  (g.edges src).map Prod.fst

/-- `DiGraph::edge`: weight of edge `a → b`, if present. -/
def DiGraph.edge (g : DiGraph N E) (a b : N) : Option E :=
  match alLookup g.nodes a with
  | some succ => (findElem (fun p => decide (p.1 = b)) succ).map Prod.snd
  | none => none

/-- `DiGraph::edge_mut`: the same lookup via `get_mut` / `iter_mut`. -/
def DiGraph.edge_mut (g : DiGraph N E) (a b : N) : Option E :=
  match alLookup g.nodes a with
  | some succ => (findElem (fun p => decide (p.1 = b)) succ).map Prod.snd
  | none => none

/-- `DiGraph::add_diedge`: add both directions (both calls always run) and
or the two results. -/
def DiGraph.add_diedge (g : DiGraph N E) (a b : N) (w : E) : DiGraph N E × Bool :=
  let r1 := g.add_edge a b w
  let r2 := r1.1.add_edge b a w
  (r2.1, r1.2 || r2.2)

/-- `DiGraph::reversed`: fold over the node keys and, per node, over its
edges, inserting each edge reversed into a fresh graph. -/
def DiGraph.reversed (g : DiGraph N E) : DiGraph N E :=
  g.nodeKeys.foldl
    (fun h node =>
      (g.edges node).foldl (fun h2 p => (h2.add_edge p.1 node p.2).1) h)
    DiGraph.new

/-- All `(source, target, weight)` triples of the graph. -/
def DiGraph.triples (g : DiGraph N E) : List (N × N × E) :=
  g.nodes.flatMap (fun e => e.2.map (fun p => (e.1, p.1, p.2)))

/-- Folding a list of triples into an accumulator graph, adding each triple
reversed; `reversed` is this fold over the graph's own triples. -/
def revFold (h : DiGraph N E) (ts : List (N × N × E)) : DiGraph N E :=
  ts.foldl (fun acc t => (acc.add_edge t.2.1 t.1 t.2.2).1) h

/-- Invariant: each node value occurs as a map key at most once. -/
def NodupKeys (g : DiGraph N E) : Prop :=
  (g.nodes.map Prod.fst).Nodup

/-- Invariant: no source node holds two outgoing edges to the same target. -/
def NoParallel (g : DiGraph N E) : Prop :=
  ∀ e ∈ g.nodes, (e.2.map Prod.fst).Nodup

/-- Invariant: every edge target is itself a key of the map. -/
def TargetsPresent (g : DiGraph N E) : Prop :=
  ∀ e ∈ g.nodes, ∀ p ∈ e.2, g.contains_node p.1 = true

/-- The conjunction of the container's structural invariants. -/
def Wf (g : DiGraph N E) : Prop :=
  NodupKeys g ∧ NoParallel g ∧ TargetsPresent g

/-- Graphs reachable from `new` by the public mutation surface. -/
inductive Reachable : DiGraph N E → Prop where
  | new : Reachable DiGraph.new
  | add_node (g : DiGraph N E) (n : N) : Reachable g → Reachable (g.add_node n).1
  | remove_node (g : DiGraph N E) (n : N) : Reachable g → Reachable (g.remove_node n).1
  | add_edge (g : DiGraph N E) (a b : N) (w : E) : Reachable g → Reachable (g.add_edge a b w).1
  | remove_edge (g : DiGraph N E) (a b : N) : Reachable g → Reachable (g.remove_edge a b).1
  | add_diedge (g : DiGraph N E) (a b : N) (w : E) : Reachable g → Reachable (g.add_diedge a b w).1
  | reversed (g : DiGraph N E) : Reachable g → Reachable g.reversed

instance decNodupKeys (g : DiGraph N E) : Decidable (NodupKeys g) :=
  List.nodupDecidable _

instance decNoParallel (g : DiGraph N E) : Decidable (NoParallel g) :=
  List.decidableBAll _ _

instance decTargetsPresent (g : DiGraph N E) : Decidable (TargetsPresent g) := by
  unfold TargetsPresent; infer_instance

instance decWf (g : DiGraph N E) : Decidable (Wf g) := by
  unfold Wf; infer_instance

/-! ### Association-list lemmas -/

theorem alLookup_alInsert_self (l : List (N × α)) (k : N) (v : α) :
    alLookup (alInsert l k v) k = some v := by
  induction l with
  | nil => simp [alInsert, alLookup]
  | cons e rest ih =>
    by_cases h : e.1 = k
    · simp [alInsert, h, alLookup]
    · simp [alInsert, h, alLookup, ih]

theorem alLookup_alInsert_ne (l : List (N × α)) (k k' : N) (v : α) (h : k' ≠ k) :
    alLookup (alInsert l k v) k' = alLookup l k' := by
  induction l with
  | nil => simp [alInsert, alLookup, Ne.symm h]
  | cons e rest ih =>
    by_cases he : e.1 = k
    · have hek : e.1 ≠ k' := fun hq => h (by rw [← hq, he])
      simp only [alInsert, if_pos he, alLookup]
      rw [if_neg (Ne.symm h), if_neg hek]
    · simp [alInsert, he, alLookup, ih]

theorem keys_alInsert_of_not_mem (l : List (N × α)) (k : N) (v : α)
    (h : k ∉ l.map Prod.fst) :
    (alInsert l k v).map Prod.fst = l.map Prod.fst ++ [k] := by
  induction l with
  | nil => simp [alInsert]
  | cons e rest ih =>
    simp only [List.map_cons, List.mem_cons] at h
    push_neg at h
    simp [alInsert, Ne.symm h.1, ih h.2]

theorem keys_alInsert_of_mem (l : List (N × α)) (k : N) (v : α)
    (h : k ∈ l.map Prod.fst) :
    (alInsert l k v).map Prod.fst = l.map Prod.fst := by
  induction l with
  | nil => simp at h
  | cons e rest ih =>
    by_cases he : e.1 = k
    · simp [alInsert, he]
    · simp only [List.map_cons, List.mem_cons] at h
      rcases h with h | h
      · exact absurd h.symm he
      · simp [alInsert, he, ih h]

theorem nodup_keys_alInsert (l : List (N × α)) (k : N) (v : α)
    (h : (l.map Prod.fst).Nodup) : ((alInsert l k v).map Prod.fst).Nodup := by
  by_cases hm : k ∈ l.map Prod.fst
  · rw [keys_alInsert_of_mem l k v hm]; exact h
  · rw [keys_alInsert_of_not_mem l k v hm]
    simp [List.nodup_append, h, hm]

theorem mem_alInsert (l : List (N × α)) (k : N) (v : α) (x : N × α)
    (h : x ∈ alInsert l k v) : x = (k, v) ∨ x ∈ l := by
  induction l with
  | nil => simp [alInsert] at h; simp [h]
  | cons e rest ih =>
    by_cases he : e.1 = k
    · simp only [alInsert, if_pos he, List.mem_cons] at h
      rcases h with h | h
      · exact Or.inl h
      · exact Or.inr (List.mem_cons_of_mem _ h)
    · simp only [alInsert, if_neg he, List.mem_cons] at h
      rcases h with h | h
      · exact Or.inr (h ▸ List.mem_cons_self _ _)
      · rcases ih h with h | h
        · exact Or.inl h
        · exact Or.inr (List.mem_cons_of_mem _ h)

theorem alLookup_eq_some_of_mem_nodup (l : List (N × α)) (k : N) (v : α)
    (hnd : (l.map Prod.fst).Nodup) (hm : (k, v) ∈ l) : alLookup l k = some v := by
  induction l with
  | nil => simp at hm
  | cons e rest ih =>
    simp only [List.map_cons, List.nodup_cons] at hnd
    rcases List.mem_cons.mp hm with h | h
    · simp [alLookup, ← h]
    · have hk : e.1 ≠ k := by
        intro he
        exact hnd.1 (he ▸ (List.mem_map.mpr ⟨(k, v), h, rfl⟩))
      simp [alLookup, hk, ih hnd.2 h]

theorem mem_of_alLookup_eq_some (l : List (N × α)) (k : N) (v : α)
    (h : alLookup l k = some v) : (k, v) ∈ l := by
  induction l with
  | nil => simp [alLookup] at h
  | cons e rest ih =>
    by_cases he : e.1 = k
    · simp only [alLookup, if_pos he, Option.some_inj] at h
      exact List.mem_cons.mpr (Or.inl (by rw [← he, ← h]))
    · simp only [alLookup, if_neg he] at h
      exact List.mem_cons_of_mem _ (ih h)

theorem alLookup_isSome_iff (l : List (N × α)) (k : N) :
    (alLookup l k).isSome = true ↔ k ∈ l.map Prod.fst := by
  induction l with
  | nil => simp [alLookup]
  | cons e rest ih =>
    by_cases he : e.1 = k
    · simp [alLookup, he]
    · simp [alLookup, he, ih, Ne.symm he]

theorem alRemove_sublist (l : List (N × α)) (n : N) : (alRemove l n).Sublist l := by
  induction l with
  | nil => simp [alRemove]
  | cons e rest ih =>
    by_cases he : e.1 = n
    · simp only [alRemove, if_pos he]
      exact List.sublist_cons_self e rest
    · simpa [alRemove, he] using ih.cons₂ e

theorem alLookup_alRemove_ne (l : List (N × α)) (n k : N) (h : k ≠ n) :
    alLookup (alRemove l n) k = alLookup l k := by
  induction l with
  | nil => simp [alRemove]
  | cons e rest ih =>
    by_cases he : e.1 = n
    · simp [alRemove, he, alLookup, Ne.symm h]
    · simp only [alRemove, if_neg he]
      by_cases hek : e.1 = k
      · simp [alLookup, hek]
      · simp [alLookup, hek, ih]

theorem alLookup_alRemove_self (l : List (N × α)) (n : N)
    (hnd : (l.map Prod.fst).Nodup) : alLookup (alRemove l n) n = none := by
  induction l with
  | nil => simp [alRemove, alLookup]
  | cons e rest ih =>
    simp only [List.map_cons, List.nodup_cons] at hnd
    by_cases he : e.1 = n
    · simp only [alRemove, if_pos he]
      have : n ∉ rest.map Prod.fst := he ▸ hnd.1
      rcases ho : alLookup rest n with _ | v
      · rfl
      · exact absurd ((alLookup_isSome_iff rest n).mp (by simp [ho])) this
    · simp [alRemove, he, alLookup, ih hnd.2]

theorem nodup_keys_alRemove (l : List (N × α)) (n : N)
    (hnd : (l.map Prod.fst).Nodup) : ((alRemove l n).map Prod.fst).Nodup :=
  ((alRemove_sublist l n).map Prod.fst).nodup hnd

/-! ### Lemmas about `position`, `findElem` and `swapRemove` -/

theorem position_eq_none_iff (p : α → Bool) (l : List α) :
    position p l = none ↔ ∀ x ∈ l, p x = false := by
  induction l with
  | nil => simp [position]
  | cons x xs ih =>
    by_cases h : p x = true
    · simp [position, h]
    · simp [position, h, ih, Bool.eq_false_iff.mpr h]

theorem position_append (p : α → Bool) (l1 : List α) (x : α) (l2 : List α)
    (h1 : ∀ y ∈ l1, p y = false) (hx : p x = true) :
    position p (l1 ++ x :: l2) = some l1.length := by
  induction l1 with
  | nil => simp [position, hx]
  | cons a as ih =>
    have ha : p a = false := h1 a (List.mem_cons_self a as)
    have ih2 := ih (fun y hy => h1 y (List.mem_cons_of_mem _ hy))
    simp [position, ha, ih2]

theorem position_eq_some (p : α → Bool) (l : List α) (i : Nat)
    (h : position p l = some i) :
    ∃ l1 x l2, l = l1 ++ x :: l2 ∧ l1.length = i ∧ p x = true ∧
      ∀ y ∈ l1, p y = false := by
  induction l generalizing i with
  | nil => simp [position] at h
  | cons a as ih =>
    by_cases ha : p a = true
    · simp only [position, if_pos ha, Option.some_inj] at h
      exact ⟨[], a, as, by simp, h, ha, by simp⟩
    · simp only [position, if_neg ha] at h
      rcases Option.map_eq_some'.mp h with ⟨j, hj, hji⟩
      rcases ih j hj with ⟨l1, x, l2, hl, hlen, hx, hall⟩
      refine ⟨a :: l1, x, l2, by simp [hl], by simp [hlen, hji], hx, ?_⟩
      intro y hy
      rcases List.mem_cons.mp hy with rfl | hy
      · exact Bool.eq_false_iff.mpr ha
      · exact hall y hy

theorem findElem_eq_none (p : α → Bool) (l : List α)
    (h : ∀ x ∈ l, p x = false) : findElem p l = none := by
  induction l with
  | nil => simp [findElem]
  | cons x xs ih =>
    have hx := h x (List.mem_cons_self x xs)
    simp [findElem, hx, ih (fun y hy => h y (List.mem_cons_of_mem _ hy))]

theorem findElem_append (p : α → Bool) (l1 : List α) (x : α) (l2 : List α)
    (h1 : ∀ y ∈ l1, p y = false) (hx : p x = true) :
    findElem p (l1 ++ x :: l2) = some x := by
  induction l1 with
  | nil => simp [findElem, hx]
  | cons a as ih =>
    have ha : p a = false := h1 a (List.mem_cons_self a as)
    simp [findElem, ha, ih (fun y hy => h1 y (List.mem_cons_of_mem _ hy))]

theorem set_append_length (l t : List α) (y : α) :
    (l ++ t).set l.length y = l ++ t.set 0 y := by
  induction l with
  | nil => simp
  | cons a as ih => simp [List.set, ih]

theorem swapRemove_concat (l : List α) (x : α) :
    swapRemove (l ++ [x]) l.length = l := by
  unfold swapRemove
  rw [List.getLast?_concat]
  show ((l ++ [x]).set l.length x).dropLast = l
  rw [set_append_length]
  simp

theorem swapRemove_decomp_perm (l1 : List α) (x : α) (l2 : List α) :
    (swapRemove (l1 ++ x :: l2) l1.length).Perm (l1 ++ l2) := by
  rcases List.eq_nil_or_concat l2 with h | ⟨L, b, h⟩
  · subst h
    rw [show l1 ++ x :: ([] : List α) = l1 ++ [x] from rfl, swapRemove_concat]
    simp
  · rw [List.concat_eq_append] at h
    subst h
    have hgl : (l1 ++ x :: (L ++ [b])).getLast? = some b := by
      rw [show l1 ++ x :: (L ++ [b]) = (l1 ++ x :: L) ++ [b] by simp]
      exact List.getLast?_concat _
    unfold swapRemove
    rw [hgl]
    show (((l1 ++ x :: (L ++ [b])).set l1.length b).dropLast).Perm (l1 ++ (L ++ [b]))
    have hset : (l1 ++ x :: (L ++ [b])).set l1.length b = l1 ++ b :: (L ++ [b]) := by
      rw [set_append_length]; rfl
    rw [hset]
    have hdrop : (l1 ++ b :: (L ++ [b])).dropLast = l1 ++ b :: L := by
      rw [show l1 ++ b :: (L ++ [b]) = (l1 ++ b :: L) ++ [b] by simp,
        List.dropLast_concat]
    rw [hdrop]
    exact List.Perm.append_left l1 (List.perm_append_singleton b L).symm

theorem getElem?_append_cons (l1 : List α) (x : α) (l2 : List α) :
    (l1 ++ x :: l2)[l1.length]? = some x := by
  induction l1 with
  | nil => simp
  | cons a as ih => simpa using ih

/-! ### Lemmas about `removeTarget` -/

theorem removeTarget_eq_of_none {E : Type} (es : List (N × E)) (n : N)
    (hp : position (fun p => decide (p.1 = n)) es = none) :
    removeTarget es n = es := by
  unfold removeTarget
  rw [hp]

theorem removeTarget_eq_of_some {E : Type} (es : List (N × E)) (n : N) (i : Nat)
    (hp : position (fun p => decide (p.1 = n)) es = some i) :
    removeTarget es n = swapRemove es i := by
  unfold removeTarget
  rw [hp]

theorem removeTarget_eq_of_no_target {E : Type} (es : List (N × E)) (n : N)
    (h : ∀ p ∈ es, p.1 ≠ n) : removeTarget es n = es :=
  removeTarget_eq_of_none es n
    ((position_eq_none_iff _ _).mpr (fun x hx => by simp [h x hx]))

theorem mem_removeTarget {E : Type} (es : List (N × E)) (n : N) (p : N × E)
    (h : p ∈ removeTarget es n) : p ∈ es := by
  rcases hp : position (fun q => decide (q.1 = n)) es with _ | i
  · rwa [removeTarget_eq_of_none es n hp] at h
  · rw [removeTarget_eq_of_some es n i hp] at h
    rcases position_eq_some _ _ _ hp with ⟨l1, x, l2, hl, hlen, _, _⟩
    subst hl
    rw [← hlen] at h
    have hm := (swapRemove_decomp_perm l1 x l2).mem_iff.mp h
    rcases List.mem_append.mp hm with hm | hm
    · exact List.mem_append_left _ hm
    · exact List.mem_append_right _ (List.mem_cons_of_mem _ hm)

theorem removeTarget_no_target {E : Type} (es : List (N × E)) (n : N)
    (hnd : (es.map Prod.fst).Nodup) : ∀ p ∈ removeTarget es n, p.1 ≠ n := by
  rcases hp : position (fun q => decide (q.1 = n)) es with _ | i
  · rw [removeTarget_eq_of_none es n hp]
    intro p hpm
    have := (position_eq_none_iff _ _).mp hp p hpm
    simpa using this
  · rw [removeTarget_eq_of_some es n i hp]
    rcases position_eq_some _ _ _ hp with ⟨l1, x, l2, hl, hlen, hx, hall⟩
    subst hl
    rw [← hlen]
    intro p hpm
    have hmem := (swapRemove_decomp_perm l1 x l2).mem_iff.mp hpm
    have hxn : x.1 = n := by simpa using hx
    rw [List.map_append, List.map_cons] at hnd
    rcases List.mem_append.mp hmem with h | h
    · have := hall p h; simpa using this
    · have hx1 : x.1 ∉ l2.map Prod.fst :=
        (List.nodup_cons.mp (List.Nodup.of_append_right hnd)).1
      intro hpn
      exact hx1 (List.mem_map.mpr ⟨p, h, by rw [hpn, hxn]⟩)

theorem nodup_fst_removeTarget {E : Type} (es : List (N × E)) (n : N)
    (hnd : (es.map Prod.fst).Nodup) : ((removeTarget es n).map Prod.fst).Nodup := by
  rcases hp : position (fun q => decide (q.1 = n)) es with _ | i
  · rw [removeTarget_eq_of_none es n hp]; exact hnd
  · rw [removeTarget_eq_of_some es n i hp]
    rcases position_eq_some _ _ _ hp with ⟨l1, x, l2, hl, hlen, _, _⟩
    subst hl
    rw [← hlen]
    have hperm := (swapRemove_decomp_perm l1 x l2).map Prod.fst
    refine hperm.nodup_iff.mpr ?_
    have hsub : List.Sublist (l1 ++ l2) (l1 ++ x :: l2) :=
      (List.sublist_cons_self x l2).append_left l1
    exact hnd.sublist (hsub.map Prod.fst)

/-! ### Normalisation of the lookup-shaped graph operations -/

theorem edges_of_lookup_some {g : DiGraph N E} {src : N} {es : List (N × E)}
    (h : alLookup g.nodes src = some es) : g.edges src = es := by
  unfold DiGraph.edges
  rw [h]

theorem edges_of_lookup_none {g : DiGraph N E} {src : N}
    (h : alLookup g.nodes src = none) : g.edges src = [] := by
  unfold DiGraph.edges
  rw [h]

theorem contains_edge_eq_any (g : DiGraph N E) (a b : N) :
    g.contains_edge a b = (g.edges a).any (fun p => decide (p.1 = b)) := by
  unfold DiGraph.contains_edge
  rcases h : alLookup g.nodes a with _ | es
  · rw [edges_of_lookup_none h]
    rfl
  · rw [edges_of_lookup_some h]

theorem edge_eq_findElem (g : DiGraph N E) (a b : N) :
    g.edge a b = (findElem (fun p => decide (p.1 = b)) (g.edges a)).map Prod.snd := by
  unfold DiGraph.edge
  rcases h : alLookup g.nodes a with _ | es
  · rw [edges_of_lookup_none h]
    rfl
  · rw [edges_of_lookup_some h]

theorem contains_node_eq (g : DiGraph N E) (n : N) :
    g.contains_node n = (alLookup g.nodes n).isSome := rfl

theorem contains_node_iff_mem_keys (g : DiGraph N E) (n : N) :
    g.contains_node n = true ↔ n ∈ g.nodeKeys := by
  rw [contains_node_eq]
  exact alLookup_isSome_iff g.nodes n

theorem position_eq_none_iff_any (p : α → Bool) (l : List α) :
    position p l = none ↔ l.any p = false := by
  rw [position_eq_none_iff]
  simp [List.any_eq_false]

theorem any_of_position_eq_some (p : α → Bool) (l : List α) (i : Nat)
    (h : position p l = some i) : l.any p = true := by
  rcases position_eq_some _ _ _ h with ⟨l1, x, l2, hl, _, hx, _⟩
  subst hl
  exact List.any_eq_true.mpr ⟨x, by simp, hx⟩

/-! ### Lemmas about `ensureNode` -/

theorem alLookup_ensureNode_ne {l : List (N × List (N × E))} {k b : N}
    (h : k ≠ b) : alLookup (ensureNode l b) k = alLookup l k := by
  unfold ensureNode
  rcases hb : alLookup l b with _ | es
  · exact alLookup_alInsert_ne l b k [] h
  · rfl

theorem edges_of_ensure_some {g : DiGraph N E} {a b : N} {es : List (N × E)}
    (h : alLookup (ensureNode g.nodes b) a = some es) : g.edges a = es := by
  by_cases hab : a = b
  · subst hab
    unfold ensureNode at h
    rcases ha : alLookup g.nodes a with _ | es0
    · rw [ha, alLookup_alInsert_self] at h
      rw [edges_of_lookup_none ha]
      exact Option.some_inj.mp h
    · rw [ha, ha] at h
      rw [edges_of_lookup_some ha]
      exact Option.some_inj.mp h
  · rw [alLookup_ensureNode_ne hab] at h
    exact edges_of_lookup_some h

theorem edges_of_ensure_none {g : DiGraph N E} {a b : N}
    (h : alLookup (ensureNode g.nodes b) a = none) : g.edges a = [] := by
  by_cases hab : a = b
  · subst hab
    unfold ensureNode at h
    rcases ha : alLookup g.nodes a with _ | es0
    · rw [ha, alLookup_alInsert_self] at h
      exact absurd h (by simp)
    · rw [ha, ha] at h
      exact absurd h (by simp)
  · rw [alLookup_ensureNode_ne hab] at h
    exact edges_of_lookup_none h

theorem lookup_of_ensure_none {g : DiGraph N E} {a b : N}
    (h : alLookup (ensureNode g.nodes b) a = none) :
    alLookup g.nodes a = none ∧ a ≠ b := by
  by_cases hab : a = b
  · subst hab
    unfold ensureNode at h
    rcases ha : alLookup g.nodes a with _ | es0
    · rw [ha, alLookup_alInsert_self] at h
      exact absurd h (by simp)
    · rw [ha, ha] at h
      exact absurd h (by simp)
  · rw [alLookup_ensureNode_ne hab] at h
    exact ⟨h, hab⟩

theorem alLookup_ensureNode_b {l : List (N × List (N × E))} (b : N) :
    alLookup (ensureNode l b) b = some ((alLookup l b).getD []) := by
  unfold ensureNode
  rcases hb : alLookup l b with _ | es
  · rw [alLookup_alInsert_self]
    rfl
  · rw [hb]
    rfl

theorem mem_keys_ensureNode {l : List (N × List (N × E))} {k b : N} :
    k ∈ (ensureNode l b).map Prod.fst ↔ k = b ∨ k ∈ l.map Prod.fst := by
  unfold ensureNode
  rcases hb : alLookup l b with _ | es
  · have hbna : b ∉ l.map Prod.fst := by
      rw [← alLookup_isSome_iff, hb]
      simp
    rw [keys_alInsert_of_not_mem _ _ _ hbna]
    simp [or_comm]
  · constructor
    · exact fun h => Or.inr h
    · rintro (rfl | h)
      · rw [← alLookup_isSome_iff, hb]
        rfl
      · exact h

theorem nodup_keys_ensureNode {l : List (N × List (N × E))} (b : N)
    (h : (l.map Prod.fst).Nodup) : ((ensureNode l b).map Prod.fst).Nodup := by
  unfold ensureNode
  rcases alLookup l b with _ | es
  · exact nodup_keys_alInsert l b [] h
  · exact h

theorem mem_ensureNode {l : List (N × List (N × E))} {b : N}
    {x : N × List (N × E)} (h : x ∈ ensureNode l b) : x ∈ l ∨ x = (b, []) := by
  unfold ensureNode at h
  rcases hb : alLookup l b with _ | es
  · rw [hb] at h
    rcases mem_alInsert _ _ _ _ h with h | h
    · exact Or.inr h
    · exact Or.inl h
  · rw [hb] at h
    exact Or.inl h

/-! ### Equation lemmas for `add_edge` and derived facts -/

theorem add_edge_def_some {g : DiGraph N E} {a b : N} {w : E}
    {es : List (N × E)} (ha : alLookup (ensureNode g.nodes b) a = some es) :
    g.add_edge a b w =
      if (position (fun p => decide (p.1 = b)) es).isNone then
        (⟨alInsert (ensureNode g.nodes b) a (es ++ [(b, w)])⟩, true)
      else
        (⟨ensureNode g.nodes b⟩, false) := by
  unfold DiGraph.add_edge
  rw [ha]

theorem add_edge_def_none {g : DiGraph N E} {a b : N} {w : E}
    (ha : alLookup (ensureNode g.nodes b) a = none) :
    g.add_edge a b w = (⟨alInsert (ensureNode g.nodes b) a [(b, w)]⟩, true) := by
  unfold DiGraph.add_edge
  rw [ha]

theorem add_edge_ret (g : DiGraph N E) (a b : N) (w : E) :
    (g.add_edge a b w).2 = !g.contains_edge a b := by
  rcases ha : alLookup (ensureNode g.nodes b) a with _ | es
  · rw [add_edge_def_none ha, contains_edge_eq_any, edges_of_ensure_none ha]
    rfl
  · rw [add_edge_def_some ha, contains_edge_eq_any, edges_of_ensure_some ha]
    rcases hp : position (fun p => decide (p.1 = b)) es with _ | i
    · simp [hp, (position_eq_none_iff_any _ _).mp hp]
    · simp [hp, any_of_position_eq_some _ _ _ hp]

theorem edges_eq_getD (g : DiGraph N E) (src : N) :
    g.edges src = (alLookup g.nodes src).getD [] := by
  rcases h : alLookup g.nodes src with _ | es
  · rw [edges_of_lookup_none h]
    rfl
  · rw [edges_of_lookup_some h]
    rfl

theorem add_edge_lookup_self (g : DiGraph N E) (a b : N) (w : E) :
    alLookup (g.add_edge a b w).1.nodes a =
      some (g.edges a ++ if g.contains_edge a b then [] else [(b, w)]) := by
  rcases ha : alLookup (ensureNode g.nodes b) a with _ | es
  · rw [add_edge_def_none ha]
    show alLookup (alInsert (ensureNode g.nodes b) a [(b, w)]) a = _
    rw [alLookup_alInsert_self, contains_edge_eq_any, edges_of_ensure_none ha]
    simp
  · rw [add_edge_def_some ha, contains_edge_eq_any, edges_of_ensure_some ha]
    rcases hp : position (fun p => decide (p.1 = b)) es with _ | i
    · simp only [hp, Option.isNone_none, if_true]
      rw [(position_eq_none_iff_any _ _).mp hp]
      show alLookup (alInsert (ensureNode g.nodes b) a (es ++ [(b, w)])) a = _
      rw [alLookup_alInsert_self]
      simp
    · simp only [hp, Option.isNone_some, Bool.false_eq_true, if_false]
      rw [any_of_position_eq_some _ _ _ hp]
      show alLookup (ensureNode g.nodes b) a = _
      rw [ha]
      simp

theorem add_edge_edges_self (g : DiGraph N E) (a b : N) (w : E) :
    (g.add_edge a b w).1.edges a =
      g.edges a ++ if g.contains_edge a b then [] else [(b, w)] :=
  edges_of_lookup_some (add_edge_lookup_self g a b w)

theorem add_edge_lookup_ne (g : DiGraph N E) (a b : N) (w : E) (k : N)
    (hka : k ≠ a) (hkb : k ≠ b) :
    alLookup (g.add_edge a b w).1.nodes k = alLookup g.nodes k := by
  rcases ha : alLookup (ensureNode g.nodes b) a with _ | es
  · rw [add_edge_def_none ha]
    show alLookup (alInsert (ensureNode g.nodes b) a [(b, w)]) k = _
    rw [alLookup_alInsert_ne _ _ _ _ hka, alLookup_ensureNode_ne hkb]
  · rw [add_edge_def_some ha]
    rcases hp : position (fun p => decide (p.1 = b)) es with _ | i
    · simp only [hp, Option.isNone_none, if_true]
      show alLookup (alInsert (ensureNode g.nodes b) a (es ++ [(b, w)])) k = _
      rw [alLookup_alInsert_ne _ _ _ _ hka, alLookup_ensureNode_ne hkb]
    · simp only [hp, Option.isNone_some, Bool.false_eq_true, if_false]
      show alLookup (ensureNode g.nodes b) k = _
      rw [alLookup_ensureNode_ne hkb]

theorem add_edge_lookup_b (g : DiGraph N E) (a b : N) (w : E) (hba : b ≠ a) :
    alLookup (g.add_edge a b w).1.nodes b = some (g.edges b) := by
  rcases ha : alLookup (ensureNode g.nodes b) a with _ | es
  · rw [add_edge_def_none ha]
    show alLookup (alInsert (ensureNode g.nodes b) a [(b, w)]) b = _
    rw [alLookup_alInsert_ne _ _ _ _ hba, alLookup_ensureNode_b, edges_eq_getD]
  · rw [add_edge_def_some ha]
    rcases hp : position (fun p => decide (p.1 = b)) es with _ | i
    · simp only [hp, Option.isNone_none, if_true]
      show alLookup (alInsert (ensureNode g.nodes b) a (es ++ [(b, w)])) b = _
      rw [alLookup_alInsert_ne _ _ _ _ hba, alLookup_ensureNode_b, edges_eq_getD]
    · simp only [hp, Option.isNone_some, Bool.false_eq_true, if_false]
      show alLookup (ensureNode g.nodes b) b = _
      rw [alLookup_ensureNode_b, edges_eq_getD]

theorem add_edge_contains_node (g : DiGraph N E) (a b : N) (w : E) (k : N) :
    (g.add_edge a b w).1.contains_node k = true ↔
      k = a ∨ k = b ∨ g.contains_node k = true := by
  by_cases hka : k = a
  · subst hka
    simp [contains_node_eq, add_edge_lookup_self]
  · by_cases hkb : k = b
    · subst hkb
      simp [contains_node_eq, add_edge_lookup_b g a k w hka, hka]
    · rw [contains_node_eq, add_edge_lookup_ne g a b w k hka hkb]
      simp [hka, hkb, contains_node_eq]

theorem add_edge_contains_edge (g : DiGraph N E) (a b : N) (w : E) (x y : N) :
    (g.add_edge a b w).1.contains_edge x y = true ↔
      (x = a ∧ y = b) ∨ g.contains_edge x y = true := by
  by_cases hxa : x = a
  · subst hxa
    rw [contains_edge_eq_any, add_edge_edges_self]
    by_cases hyb : y = b
    · subst hyb
      rcases hc : g.contains_edge x y with _ | _
      · simp [hc, List.any_append, ← contains_edge_eq_any]
      · simp [hc, List.any_append, ← contains_edge_eq_any]
    · rcases hc : g.contains_edge x b with _ | _
      · simp [hc, List.any_append, ← contains_edge_eq_any, hyb, Ne.symm hyb]
      · simp [hc, List.any_append, ← contains_edge_eq_any, hyb]
  · by_cases hxb : x = b
    · subst hxb
      by_cases hba : x = a
      · exact absurd hba hxa
      · rw [contains_edge_eq_any, edges_of_lookup_some (add_edge_lookup_b g a x w hba)]
        simp [← contains_edge_eq_any, hxa]
    · rw [contains_edge_eq_any]
      have hl := add_edge_lookup_ne g a b w x hxa hxb
      rw [show (g.add_edge a b w).1.edges x = g.edges x by
        rw [edges_eq_getD, edges_eq_getD, hl]]
      simp [← contains_edge_eq_any, hxa]

theorem add_edge_contains_edge_self (g : DiGraph N E) (a b : N) (w : E) :
    (g.add_edge a b w).1.contains_edge a b = true :=
  (add_edge_contains_edge g a b w a b).mpr (Or.inl ⟨rfl, rfl⟩)

theorem add_edge_graph_unchanged (g : DiGraph N E) (a b : N) (w : E)
    (hc : g.contains_edge a b = true) (hb : g.contains_node b = true) :
    (g.add_edge a b w).1 = g := by
  have hens : ensureNode g.nodes b = g.nodes := by
    unfold ensureNode
    rcases hbb : alLookup g.nodes b with _ | es
    · rw [contains_node_eq, hbb] at hb
      simp at hb
    · rfl
  have hex : ∃ es, alLookup g.nodes a = some es ∧
      es.any (fun p => decide (p.1 = b)) = true := by
    unfold DiGraph.contains_edge at hc
    rcases ha : alLookup g.nodes a with _ | es
    · rw [ha] at hc
      simp at hc
    · rw [ha] at hc
      exact ⟨es, rfl, hc⟩
  rcases hex with ⟨es, ha, hany⟩
  have ha' : alLookup (ensureNode g.nodes b) a = some es := by rw [hens]; exact ha
  rw [add_edge_def_some ha']
  rcases hp : position (fun p => decide (p.1 = b)) es with _ | i
  · rw [(position_eq_none_iff_any _ _).mp hp] at hany
    simp at hany
  · simp only [hp, Option.isNone_some, Bool.false_eq_true, if_false]
    rw [hens]

/-! ### `add_node` lemmas -/

theorem mem_keys_alInsert (l : List (N × α)) (k : N) (v : α) (k' : N) :
    k' ∈ (alInsert l k v).map Prod.fst ↔ k' = k ∨ k' ∈ l.map Prod.fst := by
  by_cases hm : k ∈ l.map Prod.fst
  · rw [keys_alInsert_of_mem _ _ _ hm]
    constructor
    · exact fun h => Or.inr h
    · rintro (rfl | h)
      · exact hm
      · exact h
  · rw [keys_alInsert_of_not_mem _ _ _ hm]
    simp [or_comm]

theorem add_node_contains_self (g : DiGraph N E) (n : N) :
    (g.add_node n).1.contains_node n = true := by
  rw [contains_node_eq]
  show (alLookup (alInsert g.nodes n []) n).isSome = true
  rw [alLookup_alInsert_self]
  rfl

theorem add_node_ret (g : DiGraph N E) (n : N) : (g.add_node n).2 = n := rfl

theorem add_node_edges_self (g : DiGraph N E) (n : N) :
    (g.add_node n).1.edges n = [] :=
  edges_of_lookup_some (alLookup_alInsert_self g.nodes n [])

theorem add_node_contains (g : DiGraph N E) (n k : N) :
    (g.add_node n).1.contains_node k = true ↔ k = n ∨ g.contains_node k = true := by
  rw [contains_node_iff_mem_keys, contains_node_iff_mem_keys]
  exact mem_keys_alInsert g.nodes n [] k

/-! ### `remove_edge` lemmas -/

theorem remove_edge_def_no_node {g : DiGraph N E} {a b : N}
    (ha : alLookup g.nodes a = none) : g.remove_edge a b = (g, none) := by
  unfold DiGraph.remove_edge
  rw [ha]

theorem remove_edge_def_no_edge {g : DiGraph N E} {a b : N} {es : List (N × E)}
    (ha : alLookup g.nodes a = some es)
    (hp : position (fun p => decide (p.1 = b)) es = none) :
    g.remove_edge a b = (g, none) := by
  unfold DiGraph.remove_edge
  rw [ha]
  show (match position (fun p => decide (p.1 = b)) es with
    | some index =>
      ((⟨alInsert g.nodes a (swapRemove es index)⟩ : DiGraph N E),
        (es[index]?).map Prod.snd)
    | none => (g, none)) = (g, none)
  rw [hp]

theorem remove_edge_def_found {g : DiGraph N E} {a b : N} {es : List (N × E)}
    {i : Nat} (ha : alLookup g.nodes a = some es)
    (hp : position (fun p => decide (p.1 = b)) es = some i) :
    g.remove_edge a b =
      (⟨alInsert g.nodes a (swapRemove es i)⟩, (es[i]?).map Prod.snd) := by
  unfold DiGraph.remove_edge
  rw [ha]
  show (match position (fun p => decide (p.1 = b)) es with
    | some index =>
      ((⟨alInsert g.nodes a (swapRemove es index)⟩ : DiGraph N E),
        (es[index]?).map Prod.snd)
    | none => (g, none)) = _
  rw [hp]

theorem remove_edge_of_not_contains (g : DiGraph N E) (a b : N)
    (hc : g.contains_edge a b = false) : g.remove_edge a b = (g, none) := by
  rcases ha : alLookup g.nodes a with _ | es
  · exact remove_edge_def_no_node ha
  · refine remove_edge_def_no_edge ha ?_
    rw [contains_edge_eq_any, edges_of_lookup_some ha] at hc
    exact (position_eq_none_iff_any _ _).mpr hc

theorem remove_edge_contains_node (g : DiGraph N E) (a b m : N) :
    (g.remove_edge a b).1.contains_node m = g.contains_node m := by
  rcases ha : alLookup g.nodes a with _ | es
  · rw [remove_edge_def_no_node ha]
  · rcases hp : position (fun p => decide (p.1 = b)) es with _ | i
    · rw [remove_edge_def_no_edge ha hp]
    · rw [remove_edge_def_found ha hp, contains_node_eq, contains_node_eq]
      by_cases hma : m = a
      · subst hma
        show (alLookup (alInsert g.nodes m (swapRemove es i)) m).isSome = _
        rw [alLookup_alInsert_self, ha]
        rfl
      · show (alLookup (alInsert g.nodes a (swapRemove es i)) m).isSome = _
        rw [alLookup_alInsert_ne _ _ _ _ hma]

theorem remove_edge_after_add (g : DiGraph N E) (a b : N) (w : E)
    (hc : g.contains_edge a b = false) :
    ((g.add_edge a b w).1.remove_edge a b).2 = some w ∧
    ((g.add_edge a b w).1.remove_edge a b).1.contains_edge a b = false := by
  have hl := add_edge_lookup_self g a b w
  rw [hc] at hl
  simp only [Bool.false_eq_true, if_false] at hl
  have hall : ∀ y ∈ g.edges a, (fun p => decide (p.1 = b)) y = false := by
    rw [contains_edge_eq_any] at hc
    intro y hy
    simpa using List.any_eq_false.mp hc y hy
  have hp : position (fun p => decide (p.1 = b)) (g.edges a ++ (b, w) :: []) =
      some (g.edges a).length :=
    position_append _ _ _ _ hall (by simp)
  have hfound := remove_edge_def_found hl hp
  constructor
  · rw [hfound]
    show ((g.edges a ++ (b, w) :: [])[(g.edges a).length]?).map Prod.snd = some w
    rw [getElem?_append_cons]
    rfl
  · rw [hfound, contains_edge_eq_any]
    have hsw : swapRemove (g.edges a ++ (b, w) :: []) (g.edges a).length =
        g.edges a := swapRemove_concat _ _
    have : (⟨alInsert (g.add_edge a b w).1.nodes a
        (swapRemove (g.edges a ++ (b, w) :: []) (g.edges a).length)⟩ :
        DiGraph N E).edges a = g.edges a := by
      rw [hsw]
      exact edges_of_lookup_some (alLookup_alInsert_self _ _ _)
    rw [this, ← contains_edge_eq_any]
    exact hc

/-! ### `remove_node` lemmas -/

theorem remove_node_def_absent {g : DiGraph N E} {n : N}
    (hn : alLookup g.nodes n = none) : g.remove_node n = (g, false) := by
  unfold DiGraph.remove_node
  rw [hn]

theorem remove_node_def_present {g : DiGraph N E} {n : N} {es : List (N × E)}
    (hn : alLookup g.nodes n = some es) :
    g.remove_node n =
      (⟨(alRemove g.nodes n).map (fun e => (e.1, removeTarget e.2 n))⟩, true) := by
  unfold DiGraph.remove_node
  rw [hn]

theorem remove_node_ret (g : DiGraph N E) (n : N) :
    (g.remove_node n).2 = g.contains_node n := by
  rcases hn : alLookup g.nodes n with _ | es
  · rw [remove_node_def_absent hn, contains_node_eq, hn]
    rfl
  · rw [remove_node_def_present hn, contains_node_eq, hn]
    rfl

theorem alLookup_map_removeTarget (l : List (N × List (N × E))) (n k : N) :
    alLookup (l.map (fun e => (e.1, removeTarget e.2 n))) k =
      (alLookup l k).map (fun es => removeTarget es n) := by
  induction l with
  | nil => simp [alLookup]
  | cons e rest ih =>
    by_cases he : e.1 = k
    · simp [alLookup, he]
    · simp [alLookup, he, ih]

theorem keys_map_removeTarget (l : List (N × List (N × E))) (n : N) :
    (l.map (fun e => (e.1, removeTarget e.2 n))).map Prod.fst = l.map Prod.fst := by
  rw [List.map_map]
  rfl

theorem remove_node_contains_self (g : DiGraph N E) (n : N) (hk : NodupKeys g) :
    (g.remove_node n).1.contains_node n = false := by
  rcases hn : alLookup g.nodes n with _ | es
  · rw [remove_node_def_absent hn, contains_node_eq, hn]
    rfl
  · rw [remove_node_def_present hn, contains_node_eq]
    show (alLookup ((alRemove g.nodes n).map (fun e => (e.1, removeTarget e.2 n))) n).isSome
      = false
    rw [alLookup_map_removeTarget, alLookup_alRemove_self g.nodes n hk]
    rfl

theorem remove_node_contains_ne (g : DiGraph N E) (n m : N) (hmn : m ≠ n) :
    (g.remove_node n).1.contains_node m = g.contains_node m := by
  rcases hn : alLookup g.nodes n with _ | es
  · rw [remove_node_def_absent hn]
  · rw [remove_node_def_present hn, contains_node_eq, contains_node_eq]
    show (alLookup ((alRemove g.nodes n).map (fun e => (e.1, removeTarget e.2 n))) m).isSome
      = _
    rw [alLookup_map_removeTarget, alLookup_alRemove_ne _ _ _ hmn]
    simp

theorem remove_node_no_target (g : DiGraph N E) (n : N) (hwf : Wf g) :
    ∀ m, ∀ p ∈ (g.remove_node n).1.edges m, p.1 ≠ n := by
  intro m p hp
  rcases hn : alLookup g.nodes n with _ | es0
  · rw [remove_node_def_absent hn] at hp
    rcases hm : alLookup g.nodes m with _ | es
    · rw [edges_of_lookup_none hm] at hp
      simp at hp
    · rw [edges_of_lookup_some hm] at hp
      have hmem := mem_of_alLookup_eq_some _ _ _ hm
      have := hwf.2.2 (m, es) hmem p hp
      intro hpn
      rw [hpn, contains_node_eq, hn] at this
      simp at this
  · rw [remove_node_def_present hn] at hp
    rcases hm : alLookup ((alRemove g.nodes n).map
        (fun e => (e.1, removeTarget e.2 n))) m with _ | es
    · rw [edges_of_lookup_none hm] at hp
      simp at hp
    · rw [edges_of_lookup_some hm] at hp
      rw [alLookup_map_removeTarget] at hm
      rcases ho : alLookup (alRemove g.nodes n) m with _ | es1
      · rw [ho] at hm
        simp at hm
      · rw [ho] at hm
        have hes : es = removeTarget es1 n := by
          simpa using hm.symm
      -- es1 is an adjacency list of the original graph
        have hmem1 : (m, es1) ∈ g.nodes :=
          (alRemove_sublist g.nodes n).subset (mem_of_alLookup_eq_some _ _ _ ho)
        have hnd1 : (es1.map Prod.fst).Nodup := hwf.2.1 (m, es1) hmem1
        rw [hes] at hp
        exact removeTarget_no_target es1 n hnd1 p hp

/-! ### Preservation of the structural invariants -/

theorem noParallel_iff_edges (g : DiGraph N E) (hk : NodupKeys g) :
    NoParallel g ↔ ∀ k, ((g.edges k).map Prod.fst).Nodup := by
  constructor
  · intro h k
    rcases hm : alLookup g.nodes k with _ | es
    · rw [edges_of_lookup_none hm]
      simp
    · rw [edges_of_lookup_some hm]
      exact h (k, es) (mem_of_alLookup_eq_some _ _ _ hm)
  · intro h e he
    obtain ⟨k, es⟩ := e
    have hl : alLookup g.nodes k = some es :=
      alLookup_eq_some_of_mem_nodup _ _ _ hk he
    have := h k
    rwa [edges_of_lookup_some hl] at this

theorem targetsPresent_iff_edges (g : DiGraph N E) (hk : NodupKeys g) :
    TargetsPresent g ↔ ∀ k, ∀ p ∈ g.edges k, g.contains_node p.1 = true := by
  constructor
  · intro h k p hp
    rcases hm : alLookup g.nodes k with _ | es
    · rw [edges_of_lookup_none hm] at hp
      simp at hp
    · rw [edges_of_lookup_some hm] at hp
      exact h (k, es) (mem_of_alLookup_eq_some _ _ _ hm) p hp
  · intro h e he p hp
    obtain ⟨k, es⟩ := e
    have hl : alLookup g.nodes k = some es :=
      alLookup_eq_some_of_mem_nodup _ _ _ hk he
    exact h k p (by rwa [edges_of_lookup_some hl])

theorem wf_new : Wf (DiGraph.new : DiGraph N E) := by
  refine ⟨by simp [NodupKeys, DiGraph.new], ?_, ?_⟩
  · intro e he
    simp [DiGraph.new] at he
  · intro e he
    simp [DiGraph.new] at he

theorem nodupKeys_add_node (g : DiGraph N E) (n : N) (hk : NodupKeys g) :
    NodupKeys (g.add_node n).1 :=
  nodup_keys_alInsert g.nodes n [] hk

theorem wf_add_node (g : DiGraph N E) (n : N) (hwf : Wf g) :
    Wf (g.add_node n).1 := by
  obtain ⟨hk, hp, ht⟩ := hwf
  refine ⟨nodupKeys_add_node g n hk, ?_, ?_⟩
  · intro e he
    rcases mem_alInsert _ _ _ _ he with rfl | he
    · simp
    · exact hp e he
  · intro e he p hpe
    rcases mem_alInsert _ _ _ _ he with rfl | he
    · simp at hpe
    · exact (add_node_contains g n p.1).mpr (Or.inr (ht e he p hpe))

theorem nodupKeys_add_edge (g : DiGraph N E) (a b : N) (w : E)
    (hk : NodupKeys g) : NodupKeys (g.add_edge a b w).1 := by
  rcases ha : alLookup (ensureNode g.nodes b) a with _ | es
  · rw [add_edge_def_none ha]
    exact nodup_keys_alInsert _ _ _ (nodup_keys_ensureNode b hk)
  · rw [add_edge_def_some ha]
    rcases hp : position (fun p => decide (p.1 = b)) es with _ | i
    · simp only [hp, Option.isNone_none, if_true]
      exact nodup_keys_alInsert _ _ _ (nodup_keys_ensureNode b hk)
    · simp only [hp, Option.isNone_some, Bool.false_eq_true, if_false]
      exact nodup_keys_ensureNode b hk

theorem wf_add_edge (g : DiGraph N E) (a b : N) (w : E) (hwf : Wf g) :
    Wf (g.add_edge a b w).1 := by
  obtain ⟨hk, hp, ht⟩ := hwf
  have hk' := nodupKeys_add_edge g a b w hk
  refine ⟨hk', ?_, ?_⟩
  · rw [noParallel_iff_edges _ hk']
    intro k
    by_cases hka : k = a
    · subst hka
      rw [add_edge_edges_self]
      by_cases hc : g.contains_edge k b = true
      · rw [if_pos hc, List.append_nil]
        exact (noParallel_iff_edges g hk).mp hp k
      · rw [if_neg hc, List.map_append]
        have hcf : g.contains_edge k b = false := Bool.eq_false_iff.mpr hc
        have hnok : ((g.edges k).map Prod.fst).Nodup :=
          (noParallel_iff_edges g hk).mp hp k
        have hbnot : b ∉ (g.edges k).map Prod.fst := by
          rw [contains_edge_eq_any] at hcf
          intro hmem
          rcases List.mem_map.mp hmem with ⟨q, hq, hq1⟩
          have := List.any_eq_false.mp hcf q hq
          simp [hq1] at this
        simp [List.nodup_append, hnok, hbnot]
    · by_cases hkb : k = b
      · subst hkb
        rw [edges_of_lookup_some (add_edge_lookup_b g a k w hka)]
        exact (noParallel_iff_edges g hk).mp hp k
      · rw [show (g.add_edge a b w).1.edges k = g.edges k by
          rw [edges_eq_getD, edges_eq_getD, add_edge_lookup_ne g a b w k hka hkb]]
        exact (noParallel_iff_edges g hk).mp hp k
  · rw [targetsPresent_iff_edges _ hk']
    intro k p hpk
    have hmono : ∀ q : N × E, q ∈ g.edges k → g.contains_node q.1 = true →
        (g.add_edge a b w).1.contains_node q.1 = true := by
      intro q _ hq
      exact (add_edge_contains_node g a b w q.1).mpr (Or.inr (Or.inr hq))
    have hgt := (targetsPresent_iff_edges g hk).mp ht
    by_cases hka : k = a
    · subst hka
      rw [add_edge_edges_self] at hpk
      rcases List.mem_append.mp hpk with hpk | hpk
      · exact hmono p hpk (hgt k p hpk)
      · rcases hc : g.contains_edge k b with _ | _
        · rw [hc] at hpk
          simp only [Bool.false_eq_true, if_false, List.mem_singleton] at hpk
          subst hpk
          exact (add_edge_contains_node g k b w b).mpr (Or.inr (Or.inl rfl))
        · rw [hc] at hpk
          simp at hpk
    · by_cases hkb : k = b
      · subst hkb
        rw [edges_of_lookup_some (add_edge_lookup_b g a k w hka)] at hpk
        exact hmono p hpk (hgt k p hpk)
      · rw [show (g.add_edge a b w).1.edges k = g.edges k by
          rw [edges_eq_getD, edges_eq_getD, add_edge_lookup_ne g a b w k hka hkb]] at hpk
        exact hmono p hpk (hgt k p hpk)

theorem wf_remove_edge (g : DiGraph N E) (a b : N) (hwf : Wf g) :
    Wf (g.remove_edge a b).1 := by
  obtain ⟨hk, hp, ht⟩ := hwf
  rcases ha : alLookup g.nodes a with _ | es
  · rw [remove_edge_def_no_node ha]
    exact ⟨hk, hp, ht⟩
  · rcases hpos : position (fun p => decide (p.1 = b)) es with _ | i
    · rw [remove_edge_def_no_edge ha hpos]
      exact ⟨hk, hp, ht⟩
    · rw [remove_edge_def_found ha hpos]
      have hrt : removeTarget es b = swapRemove es i :=
        removeTarget_eq_of_some es b i hpos
      show Wf (⟨alInsert g.nodes a (swapRemove es i)⟩ : DiGraph N E)
      rw [← hrt]
      have hesnd : (es.map Prod.fst).Nodup :=
        hp (a, es) (mem_of_alLookup_eq_some _ _ _ ha)
      have hcont : ∀ m, (⟨alInsert g.nodes a (removeTarget es b)⟩ :
          DiGraph N E).contains_node m = g.contains_node m := by
        intro m
        rw [contains_node_eq, contains_node_eq]
        by_cases hma : m = a
        · subst hma
          show (alLookup (alInsert g.nodes m (removeTarget es b)) m).isSome = _
          rw [alLookup_alInsert_self, ha]
          rfl
        · show (alLookup (alInsert g.nodes a (removeTarget es b)) m).isSome = _
          rw [alLookup_alInsert_ne _ _ _ _ hma]
      refine ⟨nodup_keys_alInsert _ _ _ hk, ?_, ?_⟩
      · intro e he
        rcases mem_alInsert _ _ _ _ he with rfl | he
        · exact nodup_fst_removeTarget es b hesnd
        · exact hp e he
      · intro e he p hpe
        rcases mem_alInsert _ _ _ _ he with rfl | he
        · have hpe' := mem_removeTarget es b p hpe
          have := ht (a, es) (mem_of_alLookup_eq_some _ _ _ ha) p hpe'
          rw [hcont p.1]
          exact this
        · have := ht e he p hpe
          rw [hcont p.1]
          exact this

theorem wf_remove_node (g : DiGraph N E) (n : N) (hwf : Wf g) :
    Wf (g.remove_node n).1 := by
  obtain ⟨hk, hp, ht⟩ := hwf
  rcases hn : alLookup g.nodes n with _ | es0
  · rw [remove_node_def_absent hn]
    exact ⟨hk, hp, ht⟩
  · rw [remove_node_def_present hn]
    refine ⟨?_, ?_, ?_⟩
    · show (((alRemove g.nodes n).map
        (fun e => (e.1, removeTarget e.2 n))).map Prod.fst).Nodup
      rw [keys_map_removeTarget]
      exact nodup_keys_alRemove _ _ hk
    · intro e he
      rcases List.mem_map.mp he with ⟨e0, he0, rfl⟩
      have he0g : e0 ∈ g.nodes := (alRemove_sublist g.nodes n).subset he0
      exact nodup_fst_removeTarget e0.2 n (hp e0 he0g)
    · intro e he p hpe
      rcases List.mem_map.mp he with ⟨e0, he0, rfl⟩
      have he0g : e0 ∈ g.nodes := (alRemove_sublist g.nodes n).subset he0
      have hpe0 : p ∈ e0.2 := mem_removeTarget e0.2 n p hpe
      have hcg : g.contains_node p.1 = true := ht e0 he0g p hpe0
      have hpn : p.1 ≠ n := removeTarget_no_target e0.2 n (hp e0 he0g) p hpe
      show (alLookup ((alRemove g.nodes n).map
        (fun e => (e.1, removeTarget e.2 n))) p.1).isSome = true
      rw [alLookup_map_removeTarget, alLookup_alRemove_ne _ _ _ hpn]
      rw [contains_node_eq] at hcg
      simpa using hcg

theorem wf_add_diedge (g : DiGraph N E) (a b : N) (w : E) (hwf : Wf g) :
    Wf (g.add_diedge a b w).1 := by
  show Wf ((g.add_edge a b w).1.add_edge b a w).1
  exact wf_add_edge _ _ _ _ (wf_add_edge _ _ _ _ hwf)

theorem foldl_invariant {β γ : Type} (P : β → Prop) (f : β → γ → β)
    (l : List γ) (b : β) (h0 : P b) (hstep : ∀ x y, P x → P (f x y)) :
    P (l.foldl f b) := by
  induction l generalizing b with
  | nil => exact h0
  | cons c cs ih => exact ih _ (hstep _ _ h0)

theorem wf_reversed (g : DiGraph N E) : Wf g.reversed := by
  unfold DiGraph.reversed
  exact foldl_invariant Wf _ g.nodeKeys DiGraph.new wf_new
    (fun x y hx => foldl_invariant Wf _ (g.edges y) x hx
      (fun x2 y2 hx2 => wf_add_edge x2 y2.1 y y2.2 hx2))

theorem reachable_wf {g : DiGraph N E} (h : Reachable g) : Wf g := by
  induction h with
  | new => exact wf_new
  | add_node g n _ ih => exact wf_add_node g n ih
  | remove_node g n _ ih => exact wf_remove_node g n ih
  | add_edge g a b w _ ih => exact wf_add_edge g a b w ih
  | remove_edge g a b _ ih => exact wf_remove_edge g a b ih
  | add_diedge g a b w _ ih => exact wf_add_diedge g a b w ih
  | reversed g _ => exact wf_reversed g

/-! ### Triples of a graph and the `reversed` fold -/

theorem mem_edges_iff_lookup (g : DiGraph N E) (s : N) (q : N × E) :
    q ∈ g.edges s ↔ ∃ es, alLookup g.nodes s = some es ∧ q ∈ es := by
  rcases hm : alLookup g.nodes s with _ | es
  · rw [edges_of_lookup_none hm]
    simp
  · rw [edges_of_lookup_some hm]
    constructor
    · exact fun h => ⟨es, rfl, h⟩
    · rintro ⟨es', he, hq⟩
      rw [Option.some_inj.mp he]
      exact hq

theorem mem_triples_iff_edges (g : DiGraph N E) (hk : NodupKeys g)
    (a b : N) (w : E) : (a, b, w) ∈ g.triples ↔ (b, w) ∈ g.edges a := by
  unfold DiGraph.triples
  rw [List.mem_flatMap, mem_edges_iff_lookup]
  constructor
  · rintro ⟨e, he, hm⟩
    rcases List.mem_map.mp hm with ⟨p, hp, heq⟩
    simp only [Prod.mk.injEq] at heq
    refine ⟨e.2, ?_, ?_⟩
    · rw [← heq.1]
      exact alLookup_eq_some_of_mem_nodup g.nodes e.1 e.2 hk he
    · rw [← heq.2.1, ← heq.2.2]
      exact hp
  · rintro ⟨es, hl, hm⟩
    exact ⟨(a, es), mem_of_alLookup_eq_some _ _ _ hl,
      List.mem_map.mpr ⟨(b, w), hm, rfl⟩⟩

theorem triples_src_contains (g : DiGraph N E) (x : N × N × E)
    (h : x ∈ g.triples) : g.contains_node x.1 = true := by
  unfold DiGraph.triples at h
  rcases List.mem_flatMap.mp h with ⟨e, he, hm⟩
  rcases List.mem_map.mp hm with ⟨p, _, heq⟩
  rw [contains_node_eq]
  rw [alLookup_isSome_iff]
  exact List.mem_map.mpr ⟨e, he, by rw [← heq]⟩

theorem triples_tgt_contains (g : DiGraph N E) (hwf : Wf g) (x : N × N × E)
    (h : x ∈ g.triples) : g.contains_node x.2.1 = true := by
  unfold DiGraph.triples at h
  rcases List.mem_flatMap.mp h with ⟨e, he, hm⟩
  rcases List.mem_map.mp hm with ⟨p, hp, heq⟩
  have := hwf.2.2 e he p hp
  subst heq
  exact this

theorem mem_triples_add_edge (g : DiGraph N E) (a b : N) (w : E)
    (hk : NodupKeys g) (xa xb : N) (xw : E) :
    (xa, xb, xw) ∈ (g.add_edge a b w).1.triples ↔
      (xa, xb, xw) ∈ g.triples ∨
        ((xa, xb, xw) = (a, b, w) ∧ g.contains_edge a b = false) := by
  have hk' := nodupKeys_add_edge g a b w hk
  rw [mem_triples_iff_edges _ hk', mem_triples_iff_edges _ hk]
  by_cases hxa : xa = a
  · subst hxa
    rw [add_edge_edges_self]
    rw [List.mem_append]
    by_cases hc : g.contains_edge xa b = true
    · rw [if_pos hc]
      simp [hc]
    · rw [if_neg hc]
      have hcf : g.contains_edge xa b = false := Bool.eq_false_iff.mpr hc
      simp [hcf, Prod.ext_iff]
  · by_cases hxb : xa = b
    · subst hxb
      rw [edges_of_lookup_some (add_edge_lookup_b g a xa w hxa)]
      simp [Prod.ext_iff, hxa]
    · rw [show (g.add_edge a b w).1.edges xa = g.edges xa by
        rw [edges_eq_getD, edges_eq_getD, add_edge_lookup_ne g a b w xa hxa hxb]]
      simp [Prod.ext_iff, hxa]

theorem revFold_mem (ts : List (N × N × E)) (h : DiGraph N E)
    (hk : NodupKeys h)
    (hnd : (ts.map (fun t => (t.1, t.2.1))).Nodup)
    (hfree : ∀ t ∈ ts, h.contains_edge t.2.1 t.1 = false)
    (xa xb : N) (xw : E) :
    (xa, xb, xw) ∈ (revFold h ts).triples ↔
      (xa, xb, xw) ∈ h.triples ∨ (xb, xa, xw) ∈ ts := by
  induction ts generalizing h with
  | nil => simp [revFold]
  | cons t rest ih =>
    rw [show revFold h (t :: rest) = revFold (h.add_edge t.2.1 t.1 t.2.2).1 rest
      from rfl]
    have hk' : NodupKeys (h.add_edge t.2.1 t.1 t.2.2).1 :=
      nodupKeys_add_edge _ _ _ _ hk
    have hnd' : (rest.map fun r => (r.1, r.2.1)).Nodup := (List.nodup_cons.mp hnd).2
    have htnotin : (t.1, t.2.1) ∉ rest.map (fun r => (r.1, r.2.1)) :=
      (List.nodup_cons.mp hnd).1
    have hfree' : ∀ r ∈ rest,
        (h.add_edge t.2.1 t.1 t.2.2).1.contains_edge r.2.1 r.1 = false := by
      intro r hr
      apply Bool.eq_false_iff.mpr
      intro hcc
      rcases (add_edge_contains_edge h t.2.1 t.1 t.2.2 r.2.1 r.1).mp hcc with
        ⟨h1, h2⟩ | hcc2
      · exact htnotin (List.mem_map.mpr ⟨r, hr, by rw [h2, h1]⟩)
      · have hf := hfree r (List.mem_cons_of_mem _ hr)
        rw [hf] at hcc2
        exact absurd hcc2 (by simp)
    rw [ih _ hk' hnd' hfree']
    rw [mem_triples_add_edge h t.2.1 t.1 t.2.2 hk xa xb xw]
    have hfreet := hfree t (List.mem_cons_self t rest)
    have hswap : (xa, xb, xw) = (t.2.1, t.1, t.2.2) ↔ (xb, xa, xw) = t := by
      obtain ⟨t1, t2, t3⟩ := t
      simp only [Prod.mk.injEq]
      constructor
      · rintro ⟨h1, h2, h3⟩
        exact ⟨h2, h1, h3⟩
      · rintro ⟨h1, h2, h3⟩
        exact ⟨h2, h1, h3⟩
    rw [List.mem_cons]
    constructor
    · rintro ((hh | ⟨heq, _⟩) | hr)
      · exact Or.inl hh
      · exact Or.inr (Or.inl (hswap.mp heq))
      · exact Or.inr (Or.inr hr)
    · rintro (hh | (heq | hr))
      · exact Or.inl (Or.inl hh)
      · exact Or.inl (Or.inr ⟨hswap.mpr heq, hfreet⟩)
      · exact Or.inr hr

theorem contains_node_revFold (ts : List (N × N × E)) (h : DiGraph N E) (n : N) :
    (revFold h ts).contains_node n = true ↔
      h.contains_node n = true ∨ ∃ t ∈ ts, n = t.1 ∨ n = t.2.1 := by
  induction ts generalizing h with
  | nil => simp [revFold]
  | cons t rest ih =>
    rw [show revFold h (t :: rest) = revFold (h.add_edge t.2.1 t.1 t.2.2).1 rest
      from rfl]
    rw [ih, add_edge_contains_node]
    simp only [List.mem_cons]
    constructor
    · rintro ((h1 | h1 | h1) | ⟨r, hr, h2⟩)
      · exact Or.inr ⟨t, Or.inl rfl, Or.inr h1⟩
      · exact Or.inr ⟨t, Or.inl rfl, Or.inl h1⟩
      · exact Or.inl h1
      · exact Or.inr ⟨r, Or.inr hr, h2⟩
    · rintro (h1 | ⟨r, (rfl | hr), h2⟩)
      · exact Or.inl (Or.inr (Or.inr h1))
      · rcases h2 with h2 | h2
        · exact Or.inl (Or.inr (Or.inl h2))
        · exact Or.inl (Or.inl h2)
      · exact Or.inr ⟨r, hr, h2⟩

theorem inner_fold_eq (es : List (N × E)) (node : N) (acc : DiGraph N E) :
    es.foldl (fun h2 p => (h2.add_edge p.1 node p.2).1) acc =
      revFold acc (es.map (fun p => (node, p.1, p.2))) := by
  unfold revFold
  rw [List.foldl_map]

theorem keys_fold_eq (l : List (N × List (N × E))) (F : N → List (N × E))
    (hF : ∀ e ∈ l, F e.1 = e.2) (acc : DiGraph N E) :
    (l.map Prod.fst).foldl
      (fun h node => (F node).foldl (fun h2 p => (h2.add_edge p.1 node p.2).1) h)
      acc =
    revFold acc (l.flatMap (fun e => e.2.map (fun p => (e.1, p.1, p.2)))) := by
  induction l generalizing acc with
  | nil => rfl
  | cons e rest ih =>
    simp only [List.map_cons, List.foldl_cons, List.flatMap_cons]
    rw [hF e (List.mem_cons_self e rest)]
    rw [show revFold acc (e.2.map (fun p => (e.1, p.1, p.2)) ++
        rest.flatMap (fun e => e.2.map (fun p => (e.1, p.1, p.2)))) =
      revFold (revFold acc (e.2.map (fun p => (e.1, p.1, p.2))))
        (rest.flatMap (fun e => e.2.map (fun p => (e.1, p.1, p.2)))) from
      List.foldl_append ..]
    rw [← inner_fold_eq e.2 e.1 acc]
    exact ih (fun e' he' => hF e' (List.mem_cons_of_mem _ he')) _

theorem reversed_eq_revFold (g : DiGraph N E) (hk : NodupKeys g) :
    g.reversed = revFold DiGraph.new g.triples := by
  unfold DiGraph.reversed DiGraph.triples DiGraph.nodeKeys
  exact keys_fold_eq g.nodes g.edges
    (fun e he => edges_of_lookup_some (alLookup_eq_some_of_mem_nodup _ _ _ hk he))
    DiGraph.new

theorem nodup_pairs_triples (g : DiGraph N E) (hwf : Wf g) :
    (g.triples.map (fun t => (t.1, t.2.1))).Nodup := by
  obtain ⟨hk, hp, _⟩ := hwf
  unfold DiGraph.triples
  rw [List.map_flatMap]
  rw [List.nodup_flatMap]
  constructor
  · intro e he
    have h1 : (e.2.map (fun p => ((e.1 : N), p.1, p.2))).map
        (fun t => (t.1, t.2.1)) = (e.2.map Prod.fst).map (fun v => (e.1, v)) := by
      rw [List.map_map, List.map_map]
      rfl
    rw [h1]
    refine (hp e he).map ?_
    intro x y hxy
    simpa using congrArg Prod.snd hxy
  · have hkp : g.nodes.Pairwise (fun e1 e2 => e1.1 ≠ e2.1) :=
      List.pairwise_map.mp hk
    refine hkp.imp ?_
    intro e1 e2 hne s hs1 hs2
    rcases List.mem_map.mp hs1 with ⟨t1, ht1, heq1⟩
    rcases List.mem_map.mp ht1 with ⟨q1, _, heq1b⟩
    rcases List.mem_map.mp hs2 with ⟨t2, ht2, heq2⟩
    rcases List.mem_map.mp ht2 with ⟨q2, _, heq2b⟩
    apply hne
    have h1 : e1.1 = s.1 := by rw [← heq1, ← heq1b]
    have h2 : e2.1 = s.1 := by rw [← heq2, ← heq2b]
    rw [h1, h2]

theorem mem_triples_reversed (g : DiGraph N E) (hwf : Wf g) (xa xb : N) (xw : E) :
    (xa, xb, xw) ∈ g.reversed.triples ↔ (xb, xa, xw) ∈ g.triples := by
  rw [reversed_eq_revFold g hwf.1]
  rw [revFold_mem g.triples DiGraph.new wf_new.1 (nodup_pairs_triples g hwf)
    (fun t _ => rfl) xa xb xw]
  simp [DiGraph.triples, DiGraph.new]

theorem contains_node_reversed (g : DiGraph N E) (hk : NodupKeys g) (n : N) :
    g.reversed.contains_node n = true ↔
      ∃ t ∈ g.triples, n = t.1 ∨ n = t.2.1 := by
  rw [reversed_eq_revFold g hk, contains_node_revFold]
  have hnew : (DiGraph.new : DiGraph N E).contains_node n = false := rfl
  simp [hnew]

/-! ### Further helpers for the claims -/

theorem edges_nodup_fst_of_noParallel (g : DiGraph N E) (hnp : NoParallel g)
    (k : N) : ((g.edges k).map Prod.fst).Nodup := by
  rcases hm : alLookup g.nodes k with _ | es
  · rw [edges_of_lookup_none hm]
    simp
  · rw [edges_of_lookup_some hm]
    exact hnp (k, es) (mem_of_alLookup_eq_some _ _ _ hm)

theorem add_edge_edge_new (g : DiGraph N E) (a b : N) (w : E)
    (hc : g.contains_edge a b = false) :
    (g.add_edge a b w).1.edge a b = some w := by
  rw [edge_eq_findElem, add_edge_edges_self, hc]
  simp only [Bool.false_eq_true, if_false]
  have hall : ∀ y ∈ g.edges a, (fun p => decide (p.1 = b)) y = false := by
    rw [contains_edge_eq_any] at hc
    intro y hy
    simpa using List.any_eq_false.mp hc y hy
  rw [show g.edges a ++ [(b, w)] = g.edges a ++ (b, w) :: [] from rfl]
  rw [findElem_append _ _ _ _ hall (by simp)]
  rfl

theorem add_edge_edge_preserved (g : DiGraph N E) (a b : N) (w2 : E)
    (hc : g.contains_edge a b = true) :
    (g.add_edge a b w2).1.edge a b = g.edge a b := by
  rw [edge_eq_findElem, edge_eq_findElem, add_edge_edges_self, hc]
  simp

theorem countP_target_eq_one (es : List (N × E)) (b : N)
    (hnd : (es.map Prod.fst).Nodup)
    (hmem : es.any (fun p => decide (p.1 = b)) = true) :
    es.countP (fun p => decide (p.1 = b)) = 1 := by
  have h1 : es.countP (fun p => decide (p.1 = b)) =
      (es.map Prod.fst).countP (fun x => decide (x = b)) := by
    rw [List.countP_map]
    rfl
  rw [h1]
  have hb : b ∈ es.map Prod.fst := by
    rcases List.any_eq_true.mp hmem with ⟨p, hp, hpb⟩
    exact List.mem_map.mpr ⟨p, hp, by simpa using hpb⟩
  show List.count b (es.map Prod.fst) = 1
  exact List.count_eq_one_of_mem hnd hb

theorem countP_target_eq_zero (es : List (N × E)) (b : N)
    (hmem : es.any (fun p => decide (p.1 = b)) = false) :
    es.countP (fun p => decide (p.1 = b)) = 0 := by
  rw [List.countP_eq_zero]
  intro p hp
  simpa using List.any_eq_false.mp hmem p hp

/-! ### The claims -/

/-- C1: if no edge `a → b` exists, `add_edge a b w` appends `(b, w)` to `a`'s
adjacency sequence, returns true, and afterwards `contains_edge a b` is true
and `edge a b` yields `w`; if an edge `a → b` already exists, `add_edge`
returns false, leaves `edge a b` at the original weight, and (whenever the
endpoint `b` is a node, as it always is in a graph built by the API) leaves
the graph entirely unchanged. -/
theorem C1_add_edge_first_write_wins (g : DiGraph N E) (a b : N) (w w2 : E) :
    (g.contains_edge a b = false →
      (g.add_edge a b w).2 = true ∧
      (g.add_edge a b w).1.edges a = g.edges a ++ [(b, w)] ∧
      (g.add_edge a b w).1.contains_edge a b = true ∧
      (g.add_edge a b w).1.edge a b = some w) ∧
    (g.contains_edge a b = true →
      (g.add_edge a b w2).2 = false ∧
      (g.add_edge a b w2).1.edge a b = g.edge a b ∧
      (g.contains_node b = true → (g.add_edge a b w2).1 = g)) := by
  constructor
  · intro hc
    refine ⟨?_, ?_, add_edge_contains_edge_self g a b w, add_edge_edge_new g a b w hc⟩
    · rw [add_edge_ret, hc]
      rfl
    · rw [add_edge_edges_self, hc]
      simp
  · intro hc
    refine ⟨?_, add_edge_edge_preserved g a b w2 hc, ?_⟩
    · rw [add_edge_ret, hc]
      rfl
    · intro hb
      exact add_edge_graph_unchanged g a b w2 hc hb

/-- Witness for C1 at a concrete graph: a fresh edge `1 → 2` with weight 5 is
inserted and reported; re-adding with weight 7 is refused and keeps weight 5. -/
theorem C1_witness :
    ((DiGraph.new : DiGraph Nat Nat).contains_edge 1 2 = false) ∧
    ((DiGraph.new : DiGraph Nat Nat).add_edge 1 2 5).2 = true ∧
    (((DiGraph.new : DiGraph Nat Nat).add_edge 1 2 5).1.edge 1 2 = some 5) ∧
    ((((DiGraph.new : DiGraph Nat Nat).add_edge 1 2 5).1.add_edge 1 2 7).2 = false) ∧
    ((((DiGraph.new : DiGraph Nat Nat).add_edge 1 2 5).1.add_edge 1 2 7).1.edge 1 2
      = some 5) := by
  have h1 := (C1_add_edge_first_write_wins (DiGraph.new : DiGraph Nat Nat)
    1 2 5 5).1 (by decide)
  have h2 := (C1_add_edge_first_write_wins
    ((DiGraph.new : DiGraph Nat Nat).add_edge 1 2 5).1 1 2 5 7).2 (by decide)
  refine ⟨by decide, h1.1, h1.2.2.2, h2.1, ?_⟩
  rw [h2.2.1]
  decide

/-- C2 counterexample: the claim says `reversed (reversed g)` has the same
node keys as `g` for every graph, but a graph holding the isolated node 1
loses it under double reversal. -/
theorem C2_counterexample :
    ((((DiGraph.new : DiGraph Nat Nat).add_node 1).1).contains_node 1 = true) ∧
    ((((DiGraph.new : DiGraph Nat Nat).add_node 1).1).reversed.reversed.contains_node 1
      = false) := by
  decide

/-- C2 amended: for a well-formed graph, `reversed (reversed g)` has exactly
the `(source, target, weight)` triples of `g`, and its node keys are exactly
the nodes incident to at least one edge of `g`; hence the node sets agree
whenever every node of `g` is an edge endpoint. -/
theorem C2_double_reverse (g : DiGraph N E) (hwf : Wf g) :
    (∀ (a b : N) (w : E),
      (a, b, w) ∈ g.reversed.reversed.triples ↔ (a, b, w) ∈ g.triples) ∧
    (∀ n, g.reversed.reversed.contains_node n = true ↔
      ∃ t ∈ g.triples, n = t.1 ∨ n = t.2.1) ∧
    ((∀ n, g.contains_node n = true → ∃ t ∈ g.triples, n = t.1 ∨ n = t.2.1) →
      ∀ n, g.reversed.reversed.contains_node n = true ↔ g.contains_node n = true) := by
  have hwfr : Wf g.reversed := wf_reversed g
  have h1 : ∀ (a b : N) (w : E),
      (a, b, w) ∈ g.reversed.reversed.triples ↔ (a, b, w) ∈ g.triples := by
    intro a b w
    rw [mem_triples_reversed g.reversed hwfr a b w, mem_triples_reversed g hwf b a w]
  have h2 : ∀ n, g.reversed.reversed.contains_node n = true ↔
      ∃ t ∈ g.triples, n = t.1 ∨ n = t.2.1 := by
    intro n
    rw [contains_node_reversed g.reversed hwfr.1 n]
    constructor
    · rintro ⟨t, ht, hor⟩
      obtain ⟨t1, t2, t3⟩ := t
      refine ⟨(t2, t1, t3), (mem_triples_reversed g hwf t1 t2 t3).mp ht, ?_⟩
      rcases hor with h | h
      · exact Or.inr h
      · exact Or.inl h
    · rintro ⟨t, ht, hor⟩
      obtain ⟨t1, t2, t3⟩ := t
      refine ⟨(t2, t1, t3), (mem_triples_reversed g hwf t2 t1 t3).mpr ht, ?_⟩
      rcases hor with h | h
      · exact Or.inr h
      · exact Or.inl h
  refine ⟨h1, h2, ?_⟩
  intro hcov n
  rw [h2 n]
  constructor
  · rintro ⟨t, ht, hor⟩
    rcases hor with rfl | rfl
    · exact triples_src_contains g t ht
    · exact triples_tgt_contains g hwf t ht
  · intro hc
    exact hcov n hc

/-- Witness for C2 at a concrete graph with one edge `1 → 2`. -/
theorem C2_witness :
    Wf (((DiGraph.new : DiGraph Nat Nat).add_edge 1 2 5).1) ∧
    ((1, 2, 5) ∈
      (((DiGraph.new : DiGraph Nat Nat).add_edge 1 2 5).1).reversed.reversed.triples) :=
  ⟨by decide,
    ((C2_double_reverse (((DiGraph.new : DiGraph Nat Nat).add_edge 1 2 5).1)
      (by decide)).1 1 2 5).mpr (by decide)⟩

/-- C3 counterexample: the claim says re-adding an existing node keeps its
adjacency entry in place, but `add_node` always stores a fresh empty list:
node 1 has the edge list `[(2, 5)]`, and after `add_node 1` it is empty. -/
theorem C3_counterexample :
    ((((DiGraph.new : DiGraph Nat Nat).add_edge 1 2 5).1).contains_node 1 = true) ∧
    ((((DiGraph.new : DiGraph Nat Nat).add_edge 1 2 5).1).edges 1 = [(2, 5)]) ∧
    (((((DiGraph.new : DiGraph Nat Nat).add_edge 1 2 5).1).add_node 1).1.edges 1
      = []) := by
  decide

/-- C3 amended: `add_node n` always inserts `n` with a fresh empty
outgoing-edge sequence, replacing any existing adjacency entry; afterwards
`contains_node n` is true and the call returns `n`. -/
theorem C3_add_node_resets (g : DiGraph N E) (n : N) :
    (g.add_node n).1.contains_node n = true ∧
    (g.add_node n).2 = n ∧
    (g.add_node n).1.edges n = [] :=
  ⟨add_node_contains_self g n, rfl, add_node_edges_self g n⟩

/-- C4: on a well-formed graph, `remove_node n` returns true iff `n` was a
key; afterwards `contains_node n` is false, `n` is gone from the node
sequence, and no remaining node's edge sequence targets `n`. -/
theorem C4_remove_node_spec (g : DiGraph N E) (n : N) (hwf : Wf g) :
    (g.remove_node n).2 = g.contains_node n ∧
    (g.remove_node n).1.contains_node n = false ∧
    n ∉ (g.remove_node n).1.nodeKeys ∧
    ∀ m, ∀ p ∈ (g.remove_node n).1.edges m, p.1 ≠ n := by
  refine ⟨remove_node_ret g n, remove_node_contains_self g n hwf.1, ?_,
    remove_node_no_target g n hwf⟩
  intro hmem
  have h := (contains_node_iff_mem_keys _ n).mpr hmem
  rw [remove_node_contains_self g n hwf.1] at h
  simp at h

/-- Witness for C4: removing node 2 from the graph with edge `1 → 2` reports
true and leaves no trace of 2. -/
theorem C4_witness :
    Wf (((DiGraph.new : DiGraph Nat Nat).add_edge 1 2 5).1) ∧
    ((((DiGraph.new : DiGraph Nat Nat).add_edge 1 2 5).1.remove_node 2).2 = true) ∧
    ((((DiGraph.new : DiGraph Nat Nat).add_edge 1 2 5).1.remove_node 2).1.contains_node 2
      = false) := by
  have h := C4_remove_node_spec (((DiGraph.new : DiGraph Nat Nat).add_edge 1 2 5).1)
    2 (by decide)
  refine ⟨by decide, ?_, h.2.1⟩
  rw [h.1]
  decide

/-- C5: `remove_edge a b` right after a successful `add_edge a b w` returns
`some w` and leaves `contains_edge a b` false; when `a` is missing or holds
no edge to `b` it returns `(g, none)`; and it never changes which nodes are
contained in the graph. -/
theorem C5_remove_edge_spec (g : DiGraph N E) (a b : N) (w : E) :
    (g.contains_edge a b = false →
      ((g.add_edge a b w).1.remove_edge a b).2 = some w ∧
      ((g.add_edge a b w).1.remove_edge a b).1.contains_edge a b = false) ∧
    (g.contains_edge a b = false → g.remove_edge a b = (g, none)) ∧
    (∀ m, (g.remove_edge a b).1.contains_node m = g.contains_node m) :=
  ⟨fun hc => remove_edge_after_add g a b w hc,
   fun hc => remove_edge_of_not_contains g a b hc,
   fun m => remove_edge_contains_node g a b m⟩

/-- Witness for C5: add `1 → 2` with weight 5 then remove it. -/
theorem C5_witness :
    ((DiGraph.new : DiGraph Nat Nat).contains_edge 1 2 = false) ∧
    ((((DiGraph.new : DiGraph Nat Nat).add_edge 1 2 5).1.remove_edge 1 2).2 = some 5) ∧
    ((((DiGraph.new : DiGraph Nat Nat).add_edge 1 2 5).1.remove_edge 1 2).1.contains_edge
      1 2 = false) :=
  ⟨by decide,
   ((C5_remove_edge_spec (DiGraph.new : DiGraph Nat Nat) 1 2 5).1 (by decide)).1,
   ((C5_remove_edge_spec (DiGraph.new : DiGraph Nat Nat) 1 2 5).1 (by decide)).2⟩

/-- C6 counterexample: the claim says that with `a == b` the call still
returns true, but on a graph already holding the self-loop `1 → 1` (weight 5)
`add_bidirectional_edge 1 1 7` returns false and keeps the old weight. -/
theorem C6_counterexample :
    ((((DiGraph.new : DiGraph Nat Nat).add_edge 1 1 5).1.add_diedge 1 1 7).2 = false) ∧
    ((((DiGraph.new : DiGraph Nat Nat).add_edge 1 1 5).1.add_diedge 1 1 7).1.edge 1 1
      = some 5) := by
  decide

/-- C6 amended: `add_diedge` performs both underlying `add_edge` calls and
returns their boolean or; with `a ≠ b` both directions are contained
afterwards; with `a = b` (and no parallel edges, as the API guarantees)
exactly one `a → a` entry is stored afterwards, and when the self-loop was
not already present its weight is `w` and the call returns true — when it
was present the call returns false and the old weight is kept. -/
theorem C6_add_diedge_spec (g : DiGraph N E) (a b : N) (w : E) :
    ((g.add_diedge a b w).1 = ((g.add_edge a b w).1.add_edge b a w).1 ∧
     (g.add_diedge a b w).2 =
       ((g.add_edge a b w).2 || ((g.add_edge a b w).1.add_edge b a w).2)) ∧
    (a ≠ b →
      (g.add_diedge a b w).1.contains_edge a b = true ∧
      (g.add_diedge a b w).1.contains_edge b a = true) ∧
    (a = b →
      (NoParallel g →
        ((g.add_diedge a b w).1.edges a).countP (fun p => decide (p.1 = a)) = 1) ∧
      (g.contains_edge a b = false →
        (g.add_diedge a b w).2 = true ∧
        (g.add_diedge a b w).1.edge a a = some w)) := by
  refine ⟨⟨rfl, rfl⟩, ?_, ?_⟩
  · intro _
    constructor
    · show ((g.add_edge a b w).1.add_edge b a w).1.contains_edge a b = true
      exact (add_edge_contains_edge _ b a w a b).mpr
        (Or.inr (add_edge_contains_edge_self g a b w))
    · exact add_edge_contains_edge_self (g.add_edge a b w).1 b a w
  · rintro rfl
    constructor
    · intro hnp
      show (((g.add_edge a a w).1.add_edge a a w).1.edges a).countP
        (fun p => decide (p.1 = a)) = 1
      have hc1 : (g.add_edge a a w).1.contains_edge a a = true :=
        add_edge_contains_edge_self g a a w
      rw [add_edge_edges_self, hc1]
      simp only [if_true, List.append_nil]
      rw [add_edge_edges_self]
      by_cases hc0 : g.contains_edge a a = true
      · rw [if_pos hc0, List.append_nil]
        have hnd := edges_nodup_fst_of_noParallel g hnp a
        have hmem : (g.edges a).any (fun p => decide (p.1 = a)) = true := by
          rw [← contains_edge_eq_any]
          exact hc0
        exact countP_target_eq_one _ _ hnd hmem
      · have hcf : g.contains_edge a a = false := Bool.eq_false_iff.mpr hc0
        rw [if_neg hc0, List.countP_append]
        rw [countP_target_eq_zero _ _ (by rw [← contains_edge_eq_any]; exact hcf)]
        simp
    · intro hcf
      constructor
      · show ((g.add_edge a a w).2 || ((g.add_edge a a w).1.add_edge a a w).2) = true
        rw [add_edge_ret, hcf]
        rfl
      · show ((g.add_edge a a w).1.add_edge a a w).1.edge a a = some w
        rw [add_edge_edge_preserved _ a a w (add_edge_contains_edge_self g a a w)]
        exact add_edge_edge_new g a a w hcf

/-- Witness for C6: `add_diedge 1 2 5` on the empty graph stores both
directions. -/
theorem C6_witness :
    ((1 : Nat) ≠ 2) ∧
    (((DiGraph.new : DiGraph Nat Nat).add_diedge 1 2 5).1.contains_edge 1 2 = true) ∧
    (((DiGraph.new : DiGraph Nat Nat).add_diedge 1 2 5).1.contains_edge 2 1 = true) :=
  ⟨by decide,
   ((C6_add_diedge_spec (DiGraph.new : DiGraph Nat Nat) 1 2 5).2.1 (by decide)).1,
   ((C6_add_diedge_spec (DiGraph.new : DiGraph Nat Nat) 1 2 5).2.1 (by decide)).2⟩

/-- C7: every graph reachable from `new` by the public operations has no
parallel edges and every edge target present as a key. -/
theorem C7_reachable_invariants (g : DiGraph N E) (h : Reachable g) :
    NoParallel g ∧ TargetsPresent g :=
  ⟨(reachable_wf h).2.1, (reachable_wf h).2.2⟩

/-- Witness for C7 at the reachable graph `new.add_edge 1 2 5`. -/
theorem C7_witness :
    Reachable (((DiGraph.new : DiGraph Nat Nat).add_edge 1 2 5).1) ∧
    (NoParallel (((DiGraph.new : DiGraph Nat Nat).add_edge 1 2 5).1) ∧
     TargetsPresent (((DiGraph.new : DiGraph Nat Nat).add_edge 1 2 5).1)) :=
  ⟨Reachable.add_edge _ 1 2 5 Reachable.new,
   C7_reachable_invariants _ (Reachable.add_edge _ 1 2 5 Reachable.new)⟩

/-- C8: on a node that is not a key, `neighbors`, `edges` and `edges_mut`
all yield the empty sequence. -/
theorem C8_missing_node_iteration (g : DiGraph N E) (src : N)
    (h : g.contains_node src = false) :
    g.neighbors src = [] ∧ g.edges src = [] ∧ g.edges_mut src = [] := by
  have hl : alLookup g.nodes src = none := by
    rw [contains_node_eq] at h
    exact Option.not_isSome_iff_eq_none.mp (by simp [h])
  refine ⟨?_, edges_of_lookup_none hl, ?_⟩
  · unfold DiGraph.neighbors
    rw [edges_of_lookup_none hl]
    rfl
  · unfold DiGraph.edges_mut
    rw [hl]

/-- Witness for C8 at node 3, absent from the graph with edge `1 → 2`. -/
theorem C8_witness :
    ((((DiGraph.new : DiGraph Nat Nat).add_edge 1 2 5).1).contains_node 3 = false) ∧
    ((((DiGraph.new : DiGraph Nat Nat).add_edge 1 2 5).1).neighbors 3 = []) ∧
    ((((DiGraph.new : DiGraph Nat Nat).add_edge 1 2 5).1).edges 3 = []) ∧
    ((((DiGraph.new : DiGraph Nat Nat).add_edge 1 2 5).1).edges_mut 3 = []) := by
  have h := C8_missing_node_iteration (((DiGraph.new : DiGraph Nat Nat).add_edge
    1 2 5).1) 3 (by decide)
  exact ⟨by decide, h.1, h.2.1, h.2.2⟩

/-- C9: for every edge `a → b` with weight `w` of a well-formed graph, the
reversed graph contains the edge `b → a` with the (value-equal) weight `w`. -/
theorem C9_reversed_swaps_edges (g : DiGraph N E) (hwf : Wf g)
    (a b : N) (w : E) (h : (a, b, w) ∈ g.triples) :
    (b, a, w) ∈ g.reversed.triples :=
  (mem_triples_reversed g hwf b a w).mpr h

/-- Witness for C9 on the graph with edge `1 → 2` (weight 5). -/
theorem C9_witness :
    Wf (((DiGraph.new : DiGraph Nat Nat).add_edge 1 2 5).1) ∧
    ((1, 2, 5) ∈ (((DiGraph.new : DiGraph Nat Nat).add_edge 1 2 5).1).triples) ∧
    ((2, 1, 5) ∈ (((DiGraph.new : DiGraph Nat Nat).add_edge 1 2 5).1).reversed.triples) :=
  ⟨by decide, by decide,
   C9_reversed_swaps_edges (((DiGraph.new : DiGraph Nat Nat).add_edge 1 2 5).1)
     (by decide) 1 2 5 (by decide)⟩

/-- C10: the node keys of `reversed g` are exactly the endpoints of `g`'s
edges (all of which are nodes of `g`); an isolated node of `g` is therefore
absent from `reversed g`. -/
theorem C10_reversed_node_keys (g : DiGraph N E) (hwf : Wf g) (n : N) :
    (g.reversed.contains_node n = true ↔
      ∃ t ∈ g.triples, n = t.1 ∨ n = t.2.1) ∧
    (g.reversed.contains_node n = true → g.contains_node n = true) := by
  have h1 := contains_node_reversed g hwf.1 n
  refine ⟨h1, ?_⟩
  intro hc
  rcases h1.mp hc with ⟨t, ht, hor⟩
  rcases hor with rfl | rfl
  · exact triples_src_contains g t ht
  · exact triples_tgt_contains g hwf t ht

/-- Witness for C10: in the graph with edge `1 → 2` and isolated node 3,
the reversed graph contains 2 but not 3. -/
theorem C10_witness :
    Wf ((((DiGraph.new : DiGraph Nat Nat).add_edge 1 2 5).1.add_node 3).1) ∧
    (((((DiGraph.new : DiGraph Nat Nat).add_edge 1 2 5).1.add_node 3).1).reversed.contains_node 3
      = false) ∧
    (((((DiGraph.new : DiGraph Nat Nat).add_edge 1 2 5).1.add_node 3).1).reversed.contains_node 2
      = true) := by
  have h := C10_reversed_node_keys
    ((((DiGraph.new : DiGraph Nat Nat).add_edge 1 2 5).1.add_node 3).1) (by decide)
  refine ⟨by decide, ?_, (h 2).1.mpr ⟨(1, 2, 5), by decide, by decide⟩⟩
  refine Bool.eq_false_iff.mpr (fun hc => ?_)
  exact absurd ((h 3).1.mp hc) (by decide)

end Digraph
